import Mathlib

/-!
Verification of the node-level diff/changelog engine (`diff_engine.py`).

The Python module is shallowly embedded: YAML documents become the nested
inductive type `Doc`, the flattener / path codec / diff algorithm / changelog
reads / version cache become executable Lean functions that mirror the source
line by line.  Machine-level concerns that the claims do not touch (floating
point scalars, unicode digit classes accepted by Python's `int`, real clock
time) are modelled conservatively: scalars cover strings, integers, booleans
and null; `int(...)` is modelled for ASCII input; timestamps are passed as the
already-formatted string that `compute_diff` derives from its `timestamp`
argument.
-/

/-- Scalar (YAML leaf) values: strings, integers, booleans, null. -/
inductive Scalar where
  | str : String → Scalar
  | int : Int → Scalar
  | bool : Bool → Scalar
  | null : Scalar
deriving DecidableEq

/-- A document: an arbitrary tree of mappings (ordered association lists of
string keys, as Python dicts preserve insertion order), sequences, and
scalar leaves. -/
inductive Doc where
  | map : List (String × Doc) → Doc
  | arr : List Doc → Doc
  | scalar : Scalar → Doc

/-- Python truthiness of a document value (`if old_data`): empty containers,
empty strings, zero, `False` and `None` are falsy. -/
def Doc.truthy : Doc → Bool
  | .map [] => false
  | .arr [] => false
  | .scalar (.str "") => false
  | .scalar (.int 0) => false
  | .scalar (.bool false) => false
  | .scalar .null => false
  | _ => true

/-- The test `isinstance(value, (dict, list)) and value` from the flattener. -/
def isNonEmptyContainer : Doc → Bool
  | .map (_ :: _) => true
  | .arr (_ :: _) => true
  | _ => false

-- Structural equality of documents, mirroring Python `==` on the parsed
-- YAML data (documents produced by the YAML loader have unique keys, so
-- positional comparison of the association lists is faithful).
mutual
def docBeq : Doc → Doc → Bool
  | .map a, .map b => entriesBeq a b
  | .arr a, .arr b => itemsBeq a b
  | .scalar a, .scalar b => decide (a = b)
  | _, _ => false
termination_by structural d => d

def entriesBeq : List (String × Doc) → List (String × Doc) → Bool
  | [], [] => true
  | (k₁, v₁) :: r₁, (k₂, v₂) :: r₂ => decide (k₁ = k₂) && docBeq v₁ v₂ && entriesBeq r₁ r₂
  | _, _ => false
termination_by structural l => l

def itemsBeq : List Doc → List Doc → Bool
  | [], [] => true
  | a :: r₁, b :: r₂ => docBeq a b && itemsBeq r₁ r₂
  | _, _ => false
termination_by structural l => l
end

mutual
theorem docBeq_iff : ∀ a b : Doc, docBeq a b = true ↔ a = b
  | .map a, .map b => by
      simp only [docBeq, Doc.map.injEq]
      exact entriesBeq_iff a b
  | .arr a, .arr b => by
      simp only [docBeq, Doc.arr.injEq]
      exact itemsBeq_iff a b
  | .scalar a, .scalar b => by simp [docBeq]
  | .map _, .arr _ => by simp [docBeq]
  | .map _, .scalar _ => by simp [docBeq]
  | .arr _, .map _ => by simp [docBeq]
  | .arr _, .scalar _ => by simp [docBeq]
  | .scalar _, .map _ => by simp [docBeq]
  | .scalar _, .arr _ => by simp [docBeq]
termination_by structural a => a

theorem entriesBeq_iff : ∀ a b : List (String × Doc), entriesBeq a b = true ↔ a = b
  | [], [] => by simp [entriesBeq]
  | (k₁, v₁) :: r₁, (k₂, v₂) :: r₂ => by
      simp only [entriesBeq, Bool.and_eq_true, decide_eq_true_eq, List.cons.injEq,
        Prod.mk.injEq]
      rw [docBeq_iff v₁ v₂, entriesBeq_iff r₁ r₂]
      try tauto
  | [], _ :: _ => by simp [entriesBeq]
  | _ :: _, [] => by simp [entriesBeq]
termination_by structural a => a

theorem itemsBeq_iff : ∀ a b : List Doc, itemsBeq a b = true ↔ a = b
  | [], [] => by simp [itemsBeq]
  | a :: r₁, b :: r₂ => by
      simp only [itemsBeq, Bool.and_eq_true, List.cons.injEq]
      rw [docBeq_iff a b, itemsBeq_iff r₁ r₂]
  | [], _ :: _ => by simp [itemsBeq]
  | _ :: _, [] => by simp [itemsBeq]
termination_by structural a => a
end

instance : DecidableEq Doc := fun a b =>
  decidable_of_iff (docBeq a b = true) (docBeq_iff a b)

/-- Decimal rendering of a natural number (the characters of Python `str(i)`),
fuel-driven so that it computes by structural recursion. -/
def natToCharsCore : Nat → Nat → List Char → List Char
  | 0, _, acc => acc
  | fuel + 1, n, acc =>
      if n < 10 then Char.ofNat (48 + n) :: acc
      else natToCharsCore fuel (n / 10) (Char.ofNat (48 + n % 10) :: acc)

/-- Characters of the decimal rendering of `n`. -/
def natToChars (n : Nat) : List Char := natToCharsCore (n + 1) n []

/-- Characters of Python `str(i)` for an integer `i`. -/
def intToChars : Int → List Char
  | .ofNat m => natToChars m
  | .negSucc m => '-' :: natToChars (m + 1)

/-- Path of a mapping child: `f"{path}.{key}" if path else key`. -/
def childKeyPath (path key : String) : String :=
  if path = "" then key else path ++ "." ++ key

/-- Path of a sequence child: `f"{path}[{i}]"`. -/
def childIdxPath (path : String) (i : Int) : String :=
  path ++ "[" ++ String.mk (intToChars i) ++ "]"

-- The flattener `flatten_to_nodes`: walk the document, emitting
-- `path -> value` pairs in traversal order.  The Python function accumulates
-- into a dict; the emitted pair list together with last-write-wins lookup
-- (`lookupLast` below) models that dict exactly.
mutual
def flatten : Doc → String → List (String × Doc)
  | .map entries, path => flattenMap entries path
  | .arr items, path => flattenArr items path 0
  | .scalar s, path => if path = "" then [] else [(path, .scalar s)]
termination_by structural d => d

def flattenMap : List (String × Doc) → String → List (String × Doc)
  | [], _ => []
  | (k, v) :: rest, path =>
      (if isNonEmptyContainer v then flatten v (childKeyPath path k)
       else [(childKeyPath path k, v)]) ++ flattenMap rest path
termination_by structural l => l

def flattenArr : List Doc → String → Nat → List (String × Doc)
  | [], _, _ => []
  | v :: rest, path, i =>
      (if isNonEmptyContainer v then flatten v (childIdxPath path i)
       else [(childIdxPath path i, v)]) ++ flattenArr rest path (i + 1)
termination_by structural l => l
end

/-- Final content of the accumulated dict at key `k`: the value of the last
emitted pair with that key (later `nodes[path] = value` writes win). -/
def lookupLast : List (String × Doc) → String → Option Doc
  | [], _ => none
  | (k, v) :: rest, key =>
      match lookupLast rest key with
      | some r => some r
      | none => if key = k then some v else none

example : flatten (Doc.map [("foo", Doc.map [("bar", Doc.arr [Doc.scalar (.int 1), Doc.scalar (.int 2)])])]) ""
    = [("foo.bar[0]", Doc.scalar (.int 1)), ("foo.bar[1]", Doc.scalar (.int 2))] := by decide

/-- Strip leading and trailing whitespace, modelling what Python's `int(s)`
does to its argument before parsing (ASCII whitespace). -/
def stripChars (l : List Char) : List Char :=
  ((l.dropWhile Char.isWhitespace).reverse.dropWhile Char.isWhitespace).reverse

-- Continue parsing a digit run with accumulated value `a`; single
-- underscores are allowed between digits, as in Python integer literals
-- (`pyDigitsUnd` is the state right after an underscore, which must be
-- followed by a digit).
mutual
def pyDigitsRest : List Char → Nat → Option Nat
  | [], a => some a
  | c :: rest, a =>
      if c = '_' then pyDigitsUnd rest a
      else if c.isDigit then pyDigitsRest rest (a * 10 + (c.toNat - 48))
      else none
termination_by structural cs => cs

def pyDigitsUnd : List Char → Nat → Option Nat
  | [], _ => none
  | c :: rest, a => if c.isDigit then pyDigitsRest rest (a * 10 + (c.toNat - 48)) else none
termination_by structural cs => cs
end

/-- Parse a non-empty run of decimal digits (with underscore grouping). -/
def pyDigits : List Char → Option Nat
  | [] => none
  | c :: rest => if c.isDigit then pyDigitsRest rest (c.toNat - 48) else none

/-- Sign-and-digits part of Python `int(s)` after whitespace stripping. -/
def pyIntSigned : List Char → Option Int
  | [] => none
  | c :: rest =>
      if c = '+' then (pyDigits rest).map (fun n => (n : Int))
      else if c = '-' then (pyDigits rest).map (fun n => -(n : Int))
      else (pyDigits (c :: rest)).map (fun n => (n : Int))

/-- Python `int(s)` on ASCII input: optional surrounding whitespace, optional
sign, then digits with underscore grouping; `none` models `ValueError`. -/
def pyInt (l : List Char) : Option Int :=
  pyIntSigned (stripChars l)

/-- A typed path segment: a mapping key or a sequence index (`_parse_path`
returns `list[str | int]`; Python `int(...)` can yield negative indices). -/
inductive Seg where
  | key : String → Seg
  | idx : Int → Seg
deriving DecidableEq

/-- Flush the `current` accumulator: `if current: parts.append(current)`. -/
def flushCur (cur : List Char) : List Seg :=
  if cur.isEmpty then [] else [Seg.key (String.mk cur)]

-- The path parser `_parse_path`, as a two-mode scan over the characters.
-- `parseSegsFrom cs cur` is the main loop with `current = cur`;
-- `parseIdxFrom cs inner` is the `path.find("]", i)` scan after a `[`:
-- it collects the characters before the next `]` into `inner`
-- (`index_str = path[i + 1 : j]`), failing if no `]` follows, then feeds
-- `inner` to `int(...)` and resumes the main loop after the `]`.
mutual
def parseSegsFrom : List Char → List Char → Except String (List Seg)
  | [], cur => .ok (flushCur cur)
  | c :: rest, cur =>
      if c = '.' then Except.map (fun segs => flushCur cur ++ segs) (parseSegsFrom rest [])
      else if c = '[' then Except.map (fun segs => flushCur cur ++ segs) (parseIdxFrom rest [])
      else parseSegsFrom rest (cur ++ [c])
termination_by structural cs => cs

def parseIdxFrom : List Char → List Char → Except String (List Seg)
  | [], _ => .error "Invalid path: missing closing bracket for index"
  | c :: rest, inner =>
      if c = ']' then
        match pyInt inner with
        | none => .error "Invalid path: array index is not a valid integer"
        | some n => Except.map (fun segs => Seg.idx n :: segs) (parseSegsFrom rest [])
      else parseIdxFrom rest (inner ++ [c])
termination_by structural cs => cs
end

/-- The path parser `_parse_path`; `Except.error` models the raised
`ValueError` (`InvalidPathError`). -/
def _parse_path (path : String) : Except String (List Seg) :=
  parseSegsFrom path.data []

instance {ε α : Type} [DecidableEq ε] [DecidableEq α] : DecidableEq (Except ε α) := fun a b =>
  match a, b with
  | .ok x, .ok y =>
      decidable_of_iff (x = y) ⟨fun h => by rw [h], fun h => Except.ok.inj h⟩
  | .error x, .error y =>
      decidable_of_iff (x = y) ⟨fun h => by rw [h], fun h => Except.error.inj h⟩
  | .ok _, .error _ => isFalse (fun h => Except.noConfusion h)
  | .error _, .ok _ => isFalse (fun h => Except.noConfusion h)

/-- Extend a rendered path prefix by further segments, exactly the way the
flattener builds paths (`childKeyPath` / `childIdxPath` per step). -/
def renderFrom (acc : String) : List Seg → String
  | [] => acc
  | Seg.key k :: rest => renderFrom (childKeyPath acc k) rest
  | Seg.idx n :: rest => renderFrom (childIdxPath acc n) rest

/-- Render a segment sequence to a path string exactly the way the
flattener builds paths: dot notation for keys (first key bare), bracket
notation for indices. -/
def renderPath (segs : List Seg) : String := renderFrom "" segs

/-- Dictionary lookup for the `part in current` / `current[part]` steps of
`get_node_value` (documents have unique keys, so first match is the match). -/
def listLookup : List (String × Doc) → String → Option Doc
  | [], _ => none
  | (k, v) :: rest, key => if key = k then some v else listLookup rest key

/-- The part-walking loop of `get_node_value`: `(False, None)` is modelled as
`(false, Doc.scalar .null)`. -/
def walkParts : List Seg → Doc → Bool × Doc
  | [], current => (true, current)
  | Seg.idx n :: rest, current =>
      match current with
      | Doc.arr items =>
          if n < 0 ∨ (items.length : Int) ≤ n then (false, Doc.scalar .null)
          else
            match items.get? n.toNat with
            | some x => walkParts rest x
            | none => (false, Doc.scalar .null)
      | _ => (false, Doc.scalar .null)
  | Seg.key k :: rest, current =>
      match current with
      | Doc.map entries =>
          match listLookup entries k with
          | some v => walkParts rest v
          | none => (false, Doc.scalar .null)
      | _ => (false, Doc.scalar .null)

/-- Look up a value at a path (`get_node_value`); the `ValueError` that
`_parse_path` may raise propagates to the caller. -/
def get_node_value (data : Doc) (path : String) : Except String (Bool × Doc) :=
  if path = "" then .ok (true, data)
  else
    match _parse_path path with
    | .error e => .error e
    | .ok parts => .ok (walkParts parts data)

/-- The `ChangeType` constants. -/
def ChangeType.ADDED : String := "added"

/-- The `modified` change type. -/
def ChangeType.MODIFIED : String := "modified"

/-- The `removed` change type. -/
def ChangeType.REMOVED : String := "removed"

/-- One change record, with `value` / `old` / `new` present exactly when the
corresponding dict key is present in the Python record. -/
structure Change where
  timestamp : String
  source : String
  type : String
  path : String
  value : Option Doc
  old : Option Doc
  new : Option Doc
deriving DecidableEq

/-- Value serialization for storage: scalars and containers pass through
unchanged (the `str(value)` fallback is unreachable for `Doc` data). -/
def _serialize_value : Doc → Doc
  | .scalar s => .scalar s
  | .arr l => .arr l
  | .map m => .map m

/-- Boolean lexicographic comparison of character lists (codepoint order,
which is how Python compares strings). -/
def charsLt : List Char → List Char → Bool
  | [], [] => false
  | [], _ :: _ => true
  | _ :: _, [] => false
  | a :: as, b :: bs => if a < b then true else if b < a then false else charsLt as bs

/-- Boolean string comparison; agrees with the lexicographic order `<` on
`String` (see `strLt_iff`). -/
def strLt (a b : String) : Bool := charsLt a.data b.data

/-- Insert into a sorted list of distinct strings, keeping it sorted and
duplicate-free. -/
def insertSorted (x : String) : List String → List String
  | [] => [x]
  | y :: ys =>
      if strLt x y then x :: y :: ys else if x = y then y :: ys else y :: insertSorted x ys

/-- The sorted key set `sorted(set(a))`: fold of sorted-insert. -/
def sortedKeys (l : List String) : List String := l.foldr insertSorted []

/-- The body of `compute_diff`'s per-path classification: one iteration of
`for path in sorted(all_paths)` (membership in the flattened dicts is
`lookupLast ≠ none`). -/
def diffAt (old_nodes new_nodes : List (String × Doc)) (timestamp_str source_file path : String) :
    Option Change :=
  match lookupLast old_nodes path, lookupLast new_nodes path with
  | none, some v =>
      some ⟨timestamp_str, source_file, ChangeType.ADDED, path, some (_serialize_value v), none, none⟩
  | some v, none =>
      some ⟨timestamp_str, source_file, ChangeType.REMOVED, path, none, some (_serialize_value v), none⟩
  | some vo, some vn =>
      if vo = vn then none
      else
        some ⟨timestamp_str, source_file, ChangeType.MODIFIED, path, none,
          some (_serialize_value vo), some (_serialize_value vn)⟩
  | none, none => none

/-- The old side of the diff: `flatten_to_nodes(old_data) if old_data else {}`
(Python truthiness: `None` and `{}` both give the empty dict). -/
def oldNodesOf : Option Doc → List (String × Doc)
  | none => []
  | some d => if d.truthy then flatten d "" else []

/-- The diff algorithm `compute_diff`.  The timestamp is passed as the
formatted string (`timestamp.replace(tzinfo=None).isoformat() + "Z"`). -/
def compute_diff (old_data : Option Doc) (new_data : Doc)
    (source_file timestamp_str : String) : List Change :=
  let old_nodes := oldNodesOf old_data
  let new_nodes := flatten new_data ""
  let all_paths := sortedKeys (old_nodes.map Prod.fst ++ new_nodes.map Prod.fst)
  all_paths.filterMap (diffAt old_nodes new_nodes timestamp_str source_file)

example : compute_diff none (Doc.map [("id", Doc.scalar (.str "x")), ("topic", Doc.scalar (.str "T"))]) "s" "t"
    = [⟨"t", "s", "added", "id", some (Doc.scalar (.str "x")), none, none⟩,
       ⟨"t", "s", "added", "topic", some (Doc.scalar (.str "T")), none, none⟩] := by decide

example : compute_diff
      (some (Doc.map [("tags", Doc.arr [Doc.scalar (.str "a"), Doc.scalar (.str "b")])]))
      (Doc.map [("tags", Doc.arr [Doc.scalar (.str "a"), Doc.scalar (.str "B")])]) "s" "t"
    = [⟨"t", "s", "modified", "tags[1]", none, some (Doc.scalar (.str "b")), some (Doc.scalar (.str "B"))⟩] := by
  decide

example : _parse_path "foo.bar[0].baz" = .ok [Seg.key "foo", Seg.key "bar", Seg.idx 0, Seg.key "baz"] := by
  decide
example : _parse_path "[-1]" = .ok [Seg.idx (-1)] := by decide
example : (_parse_path "a[1").toOption = none := by decide
example : (_parse_path "a[x]").toOption = none := by decide
example : renderPath [Seg.key "a", Seg.key ""] = "a." := by decide

-- ============ Changelog storage ============

/-- The read loop of `Changelog.read_all`: strip each line, skip blank lines,
append the parsed record when `json.loads` succeeds and skip the line
(logging a warning) when it raises `JSONDecodeError`.  The JSON codec is a
parameter `jload`; `none` models a parse failure. -/
def readAllLoop {α : Type} (jload : String → Option α) : List String → List α → List α
  | [], changes => changes
  | line :: rest, changes =>
      let l := line.trim
      if l ≠ "" then
        match jload l with
        | some c => readAllLoop jload rest (changes ++ [c])
        | none => readAllLoop jload rest changes
      else readAllLoop jload rest changes

/-- `Changelog.read_all`: the backing file is `none` when absent, otherwise
its list of lines.  A total function: parse failures are recovered, never
raised. -/
def read_all {α : Type} (jload : String → Option α) (file : Option (List String)) : List α :=
  match file with
  | none => []
  | some lines => readAllLoop jload lines []

/-- Stable insertion used to model Python's stable
`list.sort(key=..., reverse=True)`: an element goes in front of the first
element with a smaller-or-equal key, so earlier elements stay first on
ties. -/
def insertDescBy {α : Type} (tsOf : α → String) (x : α) : List α → List α
  | [] => [x]
  | y :: ys => if tsOf y ≤ tsOf x then x :: y :: ys else y :: insertDescBy tsOf x ys

/-- Sort descending by timestamp key (model of
`sort(key=lambda c: c.get("timestamp", ""), reverse=True)`); `tsOf` models
`c.get("timestamp", "")`. -/
def sortDescBy {α : Type} (tsOf : α → String) (l : List α) : List α :=
  l.foldr (insertDescBy tsOf) []

/-- `Changelog.read_by_date_range` applied to the record list read from the
log: `start`/`end_` are the optional bound timestamps already formatted as
`isoformat() + "Z"` strings; the defaults are the empty string and the
`"9999"` sentinel, the bounds are inclusive string comparisons, and the
result is sorted newest-first. -/
def read_by_date_range {α : Type} (tsOf : α → String) (all_changes : List α)
    (start end_ : Option String) : List α :=
  let start_str := match start with | some s => s | none => ""
  let end_str := match end_ with | some s => s | none => "9999"
  let filtered := all_changes.filter (fun c => decide (start_str ≤ tsOf c) && decide (tsOf c ≤ end_str))
  sortDescBy tsOf filtered

-- ============ Version cache and orchestrator ============

/-- The cache key of `VersionCache._cache_path`: path separators replaced by
double underscores, wrapped as `.{name}.prev`. -/
def cachePathKey (source_file : String) : String :=
  "." ++ ((source_file.replace "/" "__").replace "\\" "__") ++ ".prev"

/-- The version-cache directory, as a map from cache file name to the stored
document (the YAML dump/load round-trip is lossless for `Doc` data). -/
def VersionCacheState : Type := String → Option Doc

/-- `VersionCache.get_previous`: absent entry gives `none`. -/
def get_previous (vc : VersionCacheState) (source_file : String) : Option Doc :=
  vc (cachePathKey source_file)

/-- `VersionCache.save_current`: overwrite the entry for this source. -/
def save_current (vc : VersionCacheState) (source_file : String) (data : Doc) :
    VersionCacheState :=
  fun k => if k = cachePathKey source_file then some data else vc k

/-- Combined mutable state of `diff_and_log`: the changelog's records and the
version-cache directory. -/
structure EngineState where
  changelog : List Change
  cache : VersionCacheState

/-- The orchestrator `diff_and_log`: load the previous version, diff, append
to the changelog only when there are changes, then unconditionally save the
current version; returns the changes together with the updated state. -/
def diff_and_log (source_file : String) (new_data : Doc) (timestamp_str : String)
    (st : EngineState) : List Change × EngineState :=
  let old_data := get_previous st.cache source_file
  let changes := compute_diff old_data new_data source_file timestamp_str
  let log' := if changes.isEmpty then st.changelog else st.changelog ++ changes
  (changes, ⟨log', save_current st.cache source_file new_data⟩)

-- ============ Basic toolkit ============

theorem charsLt_iff : ∀ as bs : List Char, charsLt as bs = true ↔ List.Lex (· < ·) as bs
  | [], [] => by simp [charsLt]
  | [], _ :: _ => by simp [charsLt]; exact List.Lex.nil
  | _ :: _, [] => by simp [charsLt]
  | a :: as, b :: bs => by
      simp only [charsLt]
      rcases lt_trichotomy a b with hab | hab | hab
      · simp only [if_pos hab, true_iff]
        exact List.Lex.rel hab
      · subst hab
        simp only [if_neg (lt_irrefl a), charsLt_iff as bs]
        constructor
        · exact fun h => List.Lex.cons h
        · intro h
          cases h with
          | cons h => exact h
          | rel h => exact absurd h (lt_irrefl a)
      · rw [if_neg (not_lt_of_gt hab), if_pos hab]
        simp only [Bool.false_eq_true, false_iff]
        intro h
        cases h with
        | cons h => exact absurd rfl (ne_of_gt hab)
        | rel h => exact absurd h (not_lt_of_gt hab)

theorem strLt_iff (a b : String) : strLt a b = true ↔ a < b := by
  rw [strLt, charsLt_iff, String.lt_iff_toList_lt]
  exact Iff.rfl

theorem mem_insertSorted (x y : String) : ∀ l, y ∈ insertSorted x l ↔ y = x ∨ y ∈ l
  | [] => by simp [insertSorted]
  | z :: zs => by
      simp only [insertSorted]
      split
      · simp [or_comm, or_assoc, List.mem_cons]
      · split
        · rename_i hlt heq
          subst heq
          simp [List.mem_cons, or_comm]
        · simp only [List.mem_cons, mem_insertSorted x y zs]
          tauto

theorem pairwise_insertSorted (x : String) :
    ∀ l, l.Pairwise (· < ·) → (insertSorted x l).Pairwise (· < ·)
  | [], _ => by simp [insertSorted]
  | z :: zs, h => by
      rcases List.pairwise_cons.mp h with ⟨hz, hzs⟩
      simp only [insertSorted]
      split
      · rename_i hlt
        rw [strLt_iff] at hlt
        exact List.pairwise_cons.mpr ⟨by
          intro b hb
          rcases List.mem_cons.mp hb with hb | hb
          · exact hb ▸ hlt
          · exact lt_trans hlt (hz b hb), h⟩
      · split
        · exact h
        · rename_i hnlt hne
          have hxz : z < x := by
            rcases lt_trichotomy x z with h1 | h1 | h1
            · exact absurd ((strLt_iff x z).mpr h1) (by simpa using hnlt)
            · exact absurd h1 hne
            · exact h1
          refine List.pairwise_cons.mpr ⟨?_, pairwise_insertSorted x zs hzs⟩
          intro b hb
          rcases (mem_insertSorted x b zs).mp hb with hb | hb
          · exact hb ▸ hxz
          · exact hz b hb

theorem sortedKeys_pairwise (l : List String) : (sortedKeys l).Pairwise (· < ·) := by
  induction l with
  | nil => simp [sortedKeys]
  | cons a rest ih => exact pairwise_insertSorted a _ ih

theorem mem_sortedKeys (l : List String) (x : String) : x ∈ sortedKeys l ↔ x ∈ l := by
  induction l with
  | nil => simp [sortedKeys]
  | cons a rest ih =>
      simp only [sortedKeys, List.foldr_cons] at *
      rw [mem_insertSorted, ih, List.mem_cons]

theorem sorted_lt_ext : ∀ A B : List String, A.Pairwise (· < ·) → B.Pairwise (· < ·) →
    (∀ x, x ∈ A ↔ x ∈ B) → A = B
  | [], [], _, _, _ => rfl
  | [], b :: bs, _, _, hmem => absurd ((hmem b).mpr (List.mem_cons_self b bs)) (List.not_mem_nil b)
  | a :: as, [], _, _, hmem => absurd ((hmem a).mp (List.mem_cons_self a as)) (List.not_mem_nil a)
  | a :: as, b :: bs, hA, hB, hmem => by
      rcases List.pairwise_cons.mp hA with ⟨ha, has⟩
      rcases List.pairwise_cons.mp hB with ⟨hb, hbs⟩
      have hab : a = b := by
        rcases List.mem_cons.mp ((hmem a).mp (List.mem_cons_self a as)) with h | h
        · exact h
        · rcases List.mem_cons.mp ((hmem b).mpr (List.mem_cons_self b bs)) with h2 | h2
          · exact h2.symm
          · exact absurd (lt_trans (hb a h) (ha b h2)) (lt_irrefl b)
      subst hab
      have : as = bs := by
        refine sorted_lt_ext as bs has hbs (fun x => ⟨fun hx => ?_, fun hx => ?_⟩)
        · rcases List.mem_cons.mp ((hmem x).mp (List.mem_cons.mpr (Or.inr hx))) with h | h
          · exact absurd (h ▸ ha x hx) (lt_irrefl a)
          · exact h
        · rcases List.mem_cons.mp ((hmem x).mpr (List.mem_cons.mpr (Or.inr hx))) with h | h
          · exact absurd (h ▸ hb x hx) (lt_irrefl a)
          · exact h
      rw [this]

theorem lookupLast_isSome_iff : ∀ (l : List (String × Doc)) (k : String),
    (lookupLast l k).isSome = true ↔ k ∈ l.map Prod.fst
  | [], k => by simp [lookupLast]
  | (k', v) :: rest, k => by
      simp only [lookupLast, List.map_cons, List.mem_cons]
      rcases h : lookupLast rest k with _ | r
      · have := (lookupLast_isSome_iff rest k)
        rw [h] at this
        simp only [Option.isSome_none, Bool.false_eq_true, false_iff] at this
        constructor
        · intro hs
          by_cases hk : k = k'
          · exact Or.inl hk
          · rw [if_neg hk] at hs
            simp at hs
        · intro hmem
          rcases hmem with hk | hk
          · simp [if_pos hk]
          · exact absurd hk this
      · have := (lookupLast_isSome_iff rest k)
        rw [h] at this
        simp only [Option.isSome_some, true_iff] at this
        simp [this]

theorem filterMap_eq_nil_of {α β : Type} (f : α → Option β) :
    ∀ l : List α, (∀ a ∈ l, f a = none) → l.filterMap f = []
  | [], _ => rfl
  | a :: rest, h => by
      simp only [List.filterMap_cons, h a (List.mem_cons_self a rest)]
      exact filterMap_eq_nil_of f rest (fun b hb => h b (List.mem_cons_of_mem a hb))

theorem flatten_of_not_truthy (d : Doc) (h : d.truthy = false) : flatten d "" = [] := by
  cases d with
  | map entries =>
      cases entries with
      | nil => rfl
      | cons e rest => simp [Doc.truthy] at h
  | arr items =>
      cases items with
      | nil => rfl
      | cons e rest => simp [Doc.truthy] at h
  | scalar s => simp [flatten]

theorem oldNodesOf_some (d : Doc) : oldNodesOf (some d) = flatten d "" := by
  rcases h : d.truthy with _ | _
  · rw [oldNodesOf, if_neg (by simp [h]), flatten_of_not_truthy d h]
  · rw [oldNodesOf, if_pos h]

theorem diffAt_self (ns : List (String × Doc)) (ts src p : String) :
    diffAt ns ns ts src p = none := by
  rcases h : lookupLast ns p with _ | v
  · simp [diffAt, h]
  · simp [diffAt, h]

/-- Shared helper: diffing a document against itself yields no changes. -/
theorem compute_diff_self_eq (d : Doc) (src ts : String) :
    compute_diff (some d) d src ts = [] := by
  rw [compute_diff]
  rw [oldNodesOf_some]
  exact filterMap_eq_nil_of _ _ (fun p _ => diffAt_self _ ts src p)

-- ============ Claims C3 and C6 ============

/-- C3: for every document `d` constructible from mappings, sequences and
scalars, `compute_diff d d source` returns the empty list (reflexivity). -/
theorem compute_diff_refl (d : Doc) (src ts : String) :
    compute_diff (some d) d src ts = [] :=
  compute_diff_self_eq d src ts

/-- C6: an empty mapping or sequence reached as a child value is emitted as a
single leaf entry bound to that empty container and is not recursed into,
and a scalar given with the empty path prefix produces no entry at all. -/
theorem flatten_empty_container_and_root_scalar :
    (∀ (k : String) (rest : List (String × Doc)) (path : String),
      flattenMap ((k, Doc.map []) :: rest) path
        = (childKeyPath path k, Doc.map []) :: flattenMap rest path) ∧
    (∀ (k : String) (rest : List (String × Doc)) (path : String),
      flattenMap ((k, Doc.arr []) :: rest) path
        = (childKeyPath path k, Doc.arr []) :: flattenMap rest path) ∧
    (∀ (rest : List Doc) (path : String) (i : Nat),
      flattenArr (Doc.map [] :: rest) path i
        = (childIdxPath path i, Doc.map []) :: flattenArr rest path (i + 1)) ∧
    (∀ (rest : List Doc) (path : String) (i : Nat),
      flattenArr (Doc.arr [] :: rest) path i
        = (childIdxPath path i, Doc.arr []) :: flattenArr rest path (i + 1)) ∧
    (∀ s : Scalar, flatten (Doc.scalar s) "" = []) := by
  refine ⟨?_, ?_, ?_, ?_, ?_⟩ <;> intros <;> simp [flattenMap, flattenArr, flatten, isNonEmptyContainer]

-- ============ Per-path classification toolkit (C1, C2) ============

theorem diffAt_fields {o n : List (String × Doc)} {ts src p : String} {c : Change}
    (h : diffAt o n ts src p = some c) :
    c.path = p ∧ c.timestamp = ts ∧ c.source = src := by
  rw [diffAt] at h
  rcases ho : lookupLast o p with _ | vo <;> rcases hn : lookupLast n p with _ | vn <;>
    rw [ho, hn] at h
  · exact absurd h (by simp)
  · cases h; exact ⟨rfl, rfl, rfl⟩
  · cases h; exact ⟨rfl, rfl, rfl⟩
  · have h2 : (if vo = vn then none
        else some (⟨ts, src, ChangeType.MODIFIED, p, none, some (_serialize_value vo),
          some (_serialize_value vn)⟩ : Change)) = some c := h
    by_cases hv : vo = vn
    · rw [if_pos hv] at h2; exact absurd h2 (by simp)
    · rw [if_neg hv] at h2; cases h2; exact ⟨rfl, rfl, rfl⟩

theorem mem_filterMap_diffAt {o n : List (String × Doc)} {ts src : String} {c : Change}
    {l : List String} (h : c ∈ l.filterMap (diffAt o n ts src)) :
    c.path ∈ l ∧ c.timestamp = ts ∧ c.source = src := by
  rcases List.mem_filterMap.mp h with ⟨q, hq, hsome⟩
  rcases diffAt_fields hsome with ⟨hp, hts, hsrc⟩
  exact ⟨hp ▸ hq, hts, hsrc⟩

theorem filter_filterMap_diffAt (o n : List (String × Doc)) (ts src p : String) :
    ∀ l : List String, l.Nodup →
      (l.filterMap (diffAt o n ts src)).filter (fun c => decide (c.path = p)) =
        if p ∈ l then (diffAt o n ts src p).toList else []
  | [], _ => by simp
  | q :: rest, hnd => by
      rcases List.nodup_cons.mp hnd with ⟨hq, hrest⟩
      rw [List.filterMap_cons]
      rcases hd : diffAt o n ts src q with _ | c
      · rw [filter_filterMap_diffAt o n ts src p rest hrest]
        by_cases hpq : p = q
        · subst hpq
          simp [hq, hd]
        · simp [List.mem_cons, hpq]
      · have hcp : c.path = q := (diffAt_fields hd).1
        rw [List.filter_cons]
        by_cases hpq : p = q
        · subst hpq
          rw [if_pos (by simp [hcp]), filter_filterMap_diffAt o n ts src p rest hrest,
            if_neg hq, if_pos (List.mem_cons_self p rest), hd]
          rfl
        · rw [if_neg (by simp [hcp]; exact fun hc => absurd hc.symm hpq),
            filter_filterMap_diffAt o n ts src p rest hrest]
          simp [List.mem_cons, hpq]

theorem pairwise_path_filterMap (o n : List (String × Doc)) (ts src : String) :
    ∀ l : List String, l.Pairwise (· < ·) →
      ((l.filterMap (diffAt o n ts src)).map Change.path).Pairwise (· < ·)
  | [], _ => by simp
  | q :: rest, h => by
      rcases List.pairwise_cons.mp h with ⟨hq, hrest⟩
      rw [List.filterMap_cons]
      rcases hd : diffAt o n ts src q with _ | c
      · exact pairwise_path_filterMap o n ts src rest hrest
      · rw [List.map_cons]
        refine List.pairwise_cons.mpr ⟨?_, pairwise_path_filterMap o n ts src rest hrest⟩
        intro b hb
        rcases List.mem_map.mp hb with ⟨c', hc', hbp⟩
        have := (mem_filterMap_diffAt hc').1
        rw [(diffAt_fields hd).1, ← hbp]
        exact hq _ this

theorem filterMap_congr_of {α β : Type} {f g : α → Option β} :
    ∀ l : List α, (∀ a ∈ l, f a = g a) → l.filterMap f = l.filterMap g
  | [], _ => rfl
  | a :: rest, h => by
      rw [List.filterMap_cons, List.filterMap_cons, h a (List.mem_cons_self a rest),
        filterMap_congr_of rest (fun b hb => h b (List.mem_cons_of_mem a hb))]

theorem mem_allPaths_iff (o n : List (String × Doc)) (p : String) :
    p ∈ sortedKeys (o.map Prod.fst ++ n.map Prod.fst) ↔
      (lookupLast o p).isSome = true ∨ (lookupLast n p).isSome = true := by
  rw [mem_sortedKeys, List.mem_append, lookupLast_isSome_iff, lookupLast_isSome_iff]

theorem sortedKeys_nodup (l : List String) : (sortedKeys l).Nodup :=
  (sortedKeys_pairwise l).imp ne_of_lt

-- ============ Claims C1 and C2 ============

/-- C1: per path, `compute_diff` emits exactly one `added` record carrying the
new value when the path is only in the new snapshot, exactly one `removed`
record carrying the old value when it is only in the old snapshot, exactly
one `modified` record carrying both when it is in both with unequal values,
and no record when the values are equal; and every record of one call has
that call's timestamp and source. -/
theorem compute_diff_classification (old_data : Option Doc) (new_data : Doc)
    (src ts p : String) :
    ((compute_diff old_data new_data src ts).filter (fun c => decide (c.path = p)) =
      match lookupLast (oldNodesOf old_data) p, lookupLast (flatten new_data "") p with
      | none, none => []
      | none, some v => [⟨ts, src, ChangeType.ADDED, p, some (_serialize_value v), none, none⟩]
      | some v, none => [⟨ts, src, ChangeType.REMOVED, p, none, some (_serialize_value v), none⟩]
      | some vo, some vn =>
          if vo = vn then []
          else [⟨ts, src, ChangeType.MODIFIED, p, none, some (_serialize_value vo),
            some (_serialize_value vn)⟩]) ∧
    ∀ c ∈ compute_diff old_data new_data src ts, c.timestamp = ts ∧ c.source = src := by
  constructor
  · rw [compute_diff]
    rw [filter_filterMap_diffAt _ _ ts src p _ (sortedKeys_nodup _)]
    rcases ho : lookupLast (oldNodesOf old_data) p with _ | vo <;>
      rcases hn : lookupLast (flatten new_data "") p with _ | vn
    · rw [if_neg]
      intro hmem
      rcases (mem_allPaths_iff _ _ p).mp hmem with h | h
      · rw [ho] at h; simp at h
      · rw [hn] at h; simp at h
    · rw [if_pos ((mem_allPaths_iff _ _ p).mpr (Or.inr (by simp [hn])))]
      simp [diffAt, ho, hn]
    · rw [if_pos ((mem_allPaths_iff _ _ p).mpr (Or.inl (by simp [ho])))]
      simp [diffAt, ho, hn]
    · rw [if_pos ((mem_allPaths_iff _ _ p).mpr (Or.inl (by simp [ho])))]
      by_cases hv : vo = vn
      · simp [diffAt, ho, hn, hv]
      · simp [diffAt, ho, hn, hv]
  · intro c hc
    rw [compute_diff] at hc
    exact ⟨(mem_filterMap_diffAt hc).2.1, (mem_filterMap_diffAt hc).2.2⟩

/-- C2: `compute_diff` output is sorted by path in ascending lexicographic
order, and it depends only on the flattened snapshots as mappings (so key
insertion order in the inputs is irrelevant: inputs whose flattened
path-to-value mappings agree produce identical output). -/
theorem compute_diff_sorted_deterministic :
    (∀ (old_data : Option Doc) (new_data : Doc) (src ts : String),
      ((compute_diff old_data new_data src ts).map Change.path).Pairwise (· < ·)) ∧
    (∀ (old₁ old₂ : Option Doc) (new₁ new₂ : Doc) (src ts : String),
      (∀ q, lookupLast (oldNodesOf old₁) q = lookupLast (oldNodesOf old₂) q) →
      (∀ q, lookupLast (flatten new₁ "") q = lookupLast (flatten new₂ "") q) →
      compute_diff old₁ new₁ src ts = compute_diff old₂ new₂ src ts) := by
  constructor
  · intro old_data new_data src ts
    rw [compute_diff]
    exact pairwise_path_filterMap _ _ ts src _ (sortedKeys_pairwise _)
  · intro old₁ old₂ new₁ new₂ src ts hold hnew
    rw [compute_diff, compute_diff]
    have hpaths : sortedKeys ((oldNodesOf old₁).map Prod.fst ++ (flatten new₁ "").map Prod.fst)
        = sortedKeys ((oldNodesOf old₂).map Prod.fst ++ (flatten new₂ "").map Prod.fst) := by
      refine sorted_lt_ext _ _ (sortedKeys_pairwise _) (sortedKeys_pairwise _) (fun x => ?_)
      rw [mem_allPaths_iff, mem_allPaths_iff, hold x, hnew x]
    rw [hpaths]
    exact filterMap_congr_of _ (fun q _ => by rw [diffAt, diffAt, hold q, hnew q])

/-- Witness for C2: two top-level mappings listing the same pairs in opposite
insertion order diff identically against an empty old version. -/
theorem compute_diff_sorted_deterministic_witness :
    compute_diff none (Doc.map [("a", Doc.scalar (.int 1)), ("b", Doc.scalar (.int 2))]) "s" "t"
      = compute_diff none (Doc.map [("b", Doc.scalar (.int 2)), ("a", Doc.scalar (.int 1))]) "s" "t" :=
  compute_diff_sorted_deterministic.2 none none
    (Doc.map [("a", Doc.scalar (.int 1)), ("b", Doc.scalar (.int 2))])
    (Doc.map [("b", Doc.scalar (.int 2)), ("a", Doc.scalar (.int 1))]) "s" "t"
    (fun _ => rfl)
    (by
      intro q
      show lookupLast [("a", Doc.scalar (.int 1)), ("b", Doc.scalar (.int 2))] q
          = lookupLast [("b", Doc.scalar (.int 2)), ("a", Doc.scalar (.int 1))] q
      by_cases h1 : q = "a"
      · subst h1; decide
      · by_cases h2 : q = "b"
        · subst h2; decide
        · simp [lookupLast, h1, h2])

-- ============ Claim C7 ============

/-- C7: a second `diff_and_log` with the same document returns no changes
(the first call's save having been persisted into the state); every call
grows the changelog exactly by its change list and only when that list is
non-empty; and every call unconditionally overwrites the version-cache
entry for its source with the new document. -/
theorem diff_and_log_idempotent :
    (∀ (src : String) (d : Doc) (ts₁ ts₂ : String) (st : EngineState),
      (diff_and_log src d ts₂ (diff_and_log src d ts₁ st).2).1 = []) ∧
    (∀ (src : String) (d : Doc) (ts : String) (st : EngineState),
      (diff_and_log src d ts st).2.changelog =
        if (diff_and_log src d ts st).1.isEmpty then st.changelog
        else st.changelog ++ (diff_and_log src d ts st).1) ∧
    (∀ (src : String) (d : Doc) (ts : String) (st : EngineState),
      (diff_and_log src d ts st).2.cache (cachePathKey src) = some d) := by
  refine ⟨?_, ?_, ?_⟩
  · intro src d ts₁ ts₂ st
    show compute_diff (get_previous (save_current st.cache src d) src) d src ts₂ = []
    rw [get_previous, save_current, if_pos rfl]
    exact compute_diff_self_eq d src ts₂
  · intro src d ts st
    rfl
  · intro src d ts st
    show save_current st.cache src d (cachePathKey src) = some d
    rw [save_current, if_pos rfl]

-- ============ Claim C8 ============

theorem readAllLoop_spec {α : Type} (jload : String → Option α) :
    ∀ (lines : List String) (acc : List α),
      readAllLoop jload lines acc =
        acc ++ lines.filterMap (fun line => if line.trim = "" then none else jload line.trim)
  | [], acc => by simp [readAllLoop]
  | line :: rest, acc => by
      rw [readAllLoop, List.filterMap_cons]
      by_cases hl : line.trim = ""
      · rw [if_neg (by simp [hl]), if_pos hl, readAllLoop_spec jload rest acc]
      · rw [if_pos (by simp [hl]), if_neg hl]
        rcases hj : jload line.trim with _ | c
        · show readAllLoop jload rest acc =
            acc ++ List.filterMap (fun line => if line.trim = "" then none else jload line.trim) rest
          rw [readAllLoop_spec jload rest acc]
        · show readAllLoop jload rest (acc ++ [c]) =
            acc ++ (c :: List.filterMap (fun line => if line.trim = "" then none else jload line.trim) rest)
          rw [readAllLoop_spec jload rest (acc ++ [c]), List.append_assoc]
          rfl

/-- C8: `read_all` is total (parse failures are recovered, not raised): an
absent backing file reads as the empty list, and otherwise the result is
exactly the records of the JSON-parsable stripped lines, in file order,
with unparsable lines skipped. -/
theorem read_all_total_spec :
    (∀ (α : Type) (jload : String → Option α), read_all jload none = []) ∧
    (∀ (α : Type) (jload : String → Option α) (lines : List String),
      read_all jload (some lines) =
        lines.filterMap (fun line => if line.trim = "" then none else jload line.trim)) := by
  constructor
  · intro α jload
    rfl
  · intro α jload lines
    rw [read_all, readAllLoop_spec jload lines []]
    rfl

-- ============ Claim C9 ============

theorem insertDescBy_perm {α : Type} (tsOf : α → String) (x : α) :
    ∀ l : List α, (insertDescBy tsOf x l).Perm (x :: l)
  | [] => List.Perm.refl _
  | y :: ys => by
      rw [insertDescBy]
      split
      · exact List.Perm.refl _
      · exact ((insertDescBy_perm tsOf x ys).cons y).trans (List.Perm.swap x y ys)

theorem sortDescBy_perm {α : Type} (tsOf : α → String) :
    ∀ l : List α, (sortDescBy tsOf l).Perm l
  | [] => List.Perm.refl _
  | x :: rest => by
      rw [sortDescBy, List.foldr_cons]
      exact (insertDescBy_perm tsOf x _).trans ((sortDescBy_perm tsOf rest).cons x)

theorem insertDescBy_pairwise {α : Type} (tsOf : α → String) (x : α) :
    ∀ l : List α, l.Pairwise (fun a b => tsOf b ≤ tsOf a) →
      (insertDescBy tsOf x l).Pairwise (fun a b => tsOf b ≤ tsOf a)
  | [], _ => by simp [insertDescBy]
  | y :: ys, h => by
      rcases List.pairwise_cons.mp h with ⟨hy, hys⟩
      rw [insertDescBy]
      split
      · rename_i hxy
        refine List.pairwise_cons.mpr ⟨?_, h⟩
        intro b hb
        rcases List.mem_cons.mp hb with hb | hb
        · exact hb ▸ hxy
        · exact le_trans (hy b hb) hxy
      · rename_i hxy
        refine List.pairwise_cons.mpr ⟨?_, insertDescBy_pairwise tsOf x ys hys⟩
        intro b hb
        rcases List.mem_cons.mp ((insertDescBy_perm tsOf x ys).mem_iff.mp hb) with hb | hb
        · exact hb ▸ le_of_lt (lt_of_not_le hxy)
        · exact hy b hb

theorem sortDescBy_pairwise {α : Type} (tsOf : α → String) :
    ∀ l : List α, (sortDescBy tsOf l).Pairwise (fun a b => tsOf b ≤ tsOf a)
  | [] => by simp [sortDescBy]
  | x :: rest => by
      rw [sortDescBy, List.foldr_cons]
      exact insertDescBy_pairwise tsOf x _ (sortDescBy_pairwise tsOf rest)

/-- C9: `read_by_date_range` keeps exactly the records whose timestamp lies
between the bounds under inclusive lexicographic string comparison, with an
omitted start defaulting to `""` and an omitted end defaulting to the
`"9999"` sentinel, and returns the survivors sorted by timestamp string
descending. -/
theorem read_by_date_range_spec :
    ∀ (α : Type) (tsOf : α → String) (records : List α) (start end_ : Option String),
      (read_by_date_range tsOf records start end_).Perm
        (records.filter
          (fun c => decide (start.getD "" ≤ tsOf c) && decide (tsOf c ≤ end_.getD "9999"))) ∧
      (read_by_date_range tsOf records start end_).Pairwise (fun a b => tsOf b ≤ tsOf a) := by
  intro α tsOf records start end_
  constructor
  · show (sortDescBy tsOf _).Perm _
    rcases start with _ | s <;> rcases end_ with _ | e <;> exact sortDescBy_perm tsOf _
  · rcases start with _ | s <;> rcases end_ with _ | e <;> exact sortDescBy_pairwise tsOf _

-- ============ Decimal rendering vs. int() parsing ============

/-- Value of a digit run read left to right starting from accumulator `a`. -/
def digitsVal (a : Nat) (l : List Char) : Nat :=
  l.foldl (fun v c => v * 10 + (c.toNat - 48)) a

theorem digitChar_facts : ∀ d : Nat, d < 10 →
    (Char.ofNat (48 + d)).toNat = 48 + d ∧ (Char.ofNat (48 + d)).isDigit = true ∧
    Char.ofNat (48 + d) ≠ ']' ∧ Char.ofNat (48 + d) ≠ '-' ∧ Char.ofNat (48 + d) ≠ '+' ∧
    Char.ofNat (48 + d) ≠ '_' ∧ (Char.ofNat (48 + d)).isWhitespace = false ∧
    Char.ofNat (48 + d) ≠ '.' ∧ Char.ofNat (48 + d) ≠ '[' := by decide

theorem natToCharsCore_append : ∀ (fuel n : Nat) (acc : List Char),
    natToCharsCore fuel n acc = natToCharsCore fuel n [] ++ acc
  | 0, n, acc => rfl
  | fuel + 1, n, acc => by
      rw [natToCharsCore, natToCharsCore]
      by_cases h : n < 10
      · rw [if_pos h, if_pos h]
        rfl
      · rw [if_neg h, if_neg h, natToCharsCore_append fuel (n / 10) [Char.ofNat (48 + n % 10)],
          natToCharsCore_append fuel (n / 10) (Char.ofNat (48 + n % 10) :: acc), List.append_assoc]
        rfl

theorem natToCharsCore_mem : ∀ (fuel n : Nat), n < fuel →
    ∀ c ∈ natToCharsCore fuel n [], ∃ d, d < 10 ∧ c = Char.ofNat (48 + d)
  | 0, n, h => absurd h (Nat.not_lt_zero n)
  | fuel + 1, n, h => by
      rw [natToCharsCore]
      by_cases h10 : n < 10
      · rw [if_pos h10]
        intro c hc
        rcases List.mem_singleton.mp hc with rfl
        exact ⟨n, h10, rfl⟩
      · rw [if_neg h10, natToCharsCore_append]
        intro c hc
        rcases List.mem_append.mp hc with hc | hc
        · have hdiv : n / 10 < fuel := by
            have h1 : n / 10 < n := Nat.div_lt_self (by omega) (by omega)
            omega
          exact natToCharsCore_mem fuel (n / 10) hdiv c hc
        · rcases List.mem_singleton.mp hc with rfl
          exact ⟨n % 10, Nat.mod_lt n (by omega), rfl⟩

theorem natToCharsCore_ne_nil : ∀ (fuel n : Nat), n < fuel → natToCharsCore fuel n [] ≠ []
  | 0, n, h => absurd h (Nat.not_lt_zero n)
  | fuel + 1, n, h => by
      rw [natToCharsCore]
      by_cases h10 : n < 10
      · rw [if_pos h10]
        simp
      · rw [if_neg h10, natToCharsCore_append]
        simp

theorem digitsVal_append (a : Nat) (l₁ l₂ : List Char) :
    digitsVal a (l₁ ++ l₂) = digitsVal (digitsVal a l₁) l₂ := by
  simp [digitsVal]

theorem natToCharsCore_val : ∀ (fuel n : Nat), n < fuel → ∀ a : Nat,
    digitsVal a (natToCharsCore fuel n []) = a * 10 ^ (natToCharsCore fuel n []).length + n
  | 0, n, h => absurd h (Nat.not_lt_zero n)
  | fuel + 1, n, h => by
      intro a
      rw [natToCharsCore]
      by_cases h10 : n < 10
      · rw [if_pos h10]
        show digitsVal a [Char.ofNat (48 + n)] = a * 10 ^ 1 + n
        rw [digitsVal, List.foldl_cons, List.foldl_nil, (digitChar_facts n h10).1]
        omega
      · rw [if_neg h10, natToCharsCore_append]
        have hdiv : n / 10 < fuel := by
          have h1 : n / 10 < n := Nat.div_lt_self (by omega) (by omega)
          omega
        rw [digitsVal_append, natToCharsCore_val fuel (n / 10) hdiv a]
        have hmod : (Char.ofNat (48 + n % 10)).toNat = 48 + n % 10 :=
          (digitChar_facts (n % 10) (Nat.mod_lt n (by omega))).1
        show _ * 10 + ((Char.ofNat (48 + n % 10)).toNat - 48) = _
        rw [hmod, List.length_append, List.length_singleton, pow_succ]
        have := Nat.div_add_mod n 10
        ring_nf
        omega

theorem pyDigitsRest_digits : ∀ (l : List Char) (a : Nat),
    (∀ c ∈ l, ∃ d, d < 10 ∧ c = Char.ofNat (48 + d)) →
    pyDigitsRest l a = some (digitsVal a l)
  | [], a, _ => rfl
  | c :: rest, a, h => by
      rcases h c (List.mem_cons_self c rest) with ⟨d, hd, rfl⟩
      rw [pyDigitsRest, if_neg (digitChar_facts d hd).2.2.2.2.2.1,
        if_pos (digitChar_facts d hd).2.1,
        pyDigitsRest_digits rest _ (fun c hc => h c (List.mem_cons_of_mem _ hc))]
      rfl

theorem pyDigits_natToChars (n : Nat) : pyDigits (natToChars n) = some n := by
  have hlt : n < n + 1 := Nat.lt_succ_self n
  rcases hl : natToChars n with _ | ⟨c, rest⟩
  · exact absurd hl (natToCharsCore_ne_nil (n + 1) n hlt)
  · have hmem := natToCharsCore_mem (n + 1) n hlt
    rw [show natToCharsCore (n + 1) n [] = natToChars n from rfl, hl] at hmem
    rcases hmem c (List.mem_cons_self c rest) with ⟨d, hd, rfl⟩
    rw [pyDigits, if_pos (digitChar_facts d hd).2.1,
      pyDigitsRest_digits rest _ (fun c hc => hmem c (List.mem_cons_of_mem _ hc))]
    have hval : digitsVal 0 (natToChars n) = n := by
      have := natToCharsCore_val (n + 1) n hlt 0
      rw [show natToCharsCore (n + 1) n [] = natToChars n from rfl] at this
      simpa using this
    rw [hl, digitsVal, List.foldl_cons] at hval
    rw [show digitsVal ((Char.ofNat (48 + d)).toNat - 48) rest
        = List.foldl (fun v c => v * 10 + (c.toNat - 48)) ((Char.ofNat (48 + d)).toNat - 48) rest
      from rfl]
    rw [show (0 : Nat) * 10 + ((Char.ofNat (48 + d)).toNat - 48)
        = (Char.ofNat (48 + d)).toNat - 48 by omega] at hval
    rw [hval]

theorem dropWhile_of_none {p : Char → Bool} :
    ∀ l : List Char, (∀ c ∈ l, p c = false) → l.dropWhile p = l
  | [], _ => rfl
  | c :: rest, h => by
      rw [List.dropWhile_cons, h c (List.mem_cons_self c rest)]
      simp

theorem stripChars_noop (l : List Char) (h : ∀ c ∈ l, c.isWhitespace = false) :
    stripChars l = l := by
  rw [stripChars, dropWhile_of_none l h,
    dropWhile_of_none l.reverse (fun c hc => h c (List.mem_reverse.mp hc)), List.reverse_reverse]

theorem natToChars_mem (n : Nat) :
    ∀ c ∈ natToChars n, ∃ d, d < 10 ∧ c = Char.ofNat (48 + d) :=
  natToCharsCore_mem (n + 1) n (Nat.lt_succ_self n)

theorem pyInt_intToChars : ∀ n : Int, pyInt (intToChars n) = some n := by
  intro n
  cases n with
  | ofNat m =>
      have hws : ∀ c ∈ natToChars m, c.isWhitespace = false := by
        intro c hc
        rcases natToChars_mem m c hc with ⟨d, hd, rfl⟩
        exact (digitChar_facts d hd).2.2.2.2.2.2.1
      rw [intToChars, pyInt, stripChars_noop _ hws]
      rcases hl : natToChars m with _ | ⟨c, rest⟩
      · exact absurd hl (natToCharsCore_ne_nil (m + 1) m (Nat.lt_succ_self m))
      · have hmem := natToChars_mem m
        rw [hl] at hmem
        rcases hmem c (List.mem_cons_self c rest) with ⟨d, hd, rfl⟩
        rw [pyIntSigned, if_neg (digitChar_facts d hd).2.2.2.2.1,
          if_neg (digitChar_facts d hd).2.2.2.1, ← hl, pyDigits_natToChars m]
        rfl
  | negSucc m =>
      have hstrip : stripChars ('-' :: natToChars (m + 1)) = '-' :: natToChars (m + 1) := by
        refine stripChars_noop _ (fun c hc => ?_)
        rcases List.mem_cons.mp hc with rfl | hc
        · decide
        · rcases natToChars_mem (m + 1) c hc with ⟨d, hd, rfl⟩
          exact (digitChar_facts d hd).2.2.2.2.2.2.1
      rw [intToChars, pyInt, hstrip, pyIntSigned, if_neg (by decide), if_pos rfl,
        pyDigits_natToChars (m + 1)]
      show some (-((m + 1 : Nat) : Int)) = some (Int.negSucc m)
      rw [Int.negSucc_eq]
      norm_num

-- ============ Error characterization of the path parser (C5) ============

/-- Whether an `Except` result is a success. -/
def isOkB {ε α : Type} : Except ε α → Bool
  | .ok _ => true
  | .error _ => false

-- Spec-side characterization of the invalid-path condition, following the
-- words of the specification: scanning the path left to right, a `[` whose
-- following text contains no `]` is an error, and so is a bracket pair
-- whose enclosed text `int(...)` rejects; everything else is fine.
mutual
def pathScanBad : List Char → Bool
  | [] => false
  | c :: rest => if c = '[' then idxScanBad rest [] else pathScanBad rest
termination_by structural cs => cs

def idxScanBad : List Char → List Char → Bool
  | [], _ => true
  | c :: rest, inner =>
      if c = ']' then (if (pyInt inner).isNone then true else pathScanBad rest)
      else idxScanBad rest (inner ++ [c])
termination_by structural cs => cs
end

theorem isOkB_map {ε α β : Type} (f : α → β) (r : Except ε α) :
    isOkB (Except.map f r) = isOkB r := by
  rcases r with e | v <;> rfl

mutual
theorem parseSegsFrom_ok_iff : ∀ (cs cur : List Char),
    isOkB (parseSegsFrom cs cur) = !pathScanBad cs
  | [], cur => rfl
  | c :: rest, cur => by
      rw [parseSegsFrom, pathScanBad]
      by_cases h1 : c = '.'
      · have hne : c ≠ '[' := by rw [h1]; decide
        rw [if_pos h1, if_neg hne, isOkB_map, parseSegsFrom_ok_iff rest []]
      · by_cases h2 : c = '['
        · rw [if_neg h1, if_pos h2, if_pos h2, isOkB_map, parseIdxFrom_ok_iff rest []]
        · rw [if_neg h1, if_neg h2, if_neg h2, parseSegsFrom_ok_iff rest (cur ++ [c])]
termination_by structural cs => cs

theorem parseIdxFrom_ok_iff : ∀ (cs inner : List Char),
    isOkB (parseIdxFrom cs inner) = !idxScanBad cs inner
  | [], inner => rfl
  | c :: rest, inner => by
      rw [parseIdxFrom, idxScanBad]
      by_cases h1 : c = ']'
      · rw [if_pos h1, if_pos h1]
        rcases hpy : pyInt inner with _ | n
        · simp [hpy, isOkB]
        · simp [hpy, isOkB_map, parseSegsFrom_ok_iff rest []]
      · rw [if_neg h1, if_neg h1, parseIdxFrom_ok_iff rest (inner ++ [c])]
termination_by structural cs => cs
end

/-- C5 (amended): the parser fails exactly on the scan-detectable invalid
inputs — a `[` with no later matching `]`, or bracketed text rejected by
Python `int(...)` (which accepts signs, whitespace and underscore grouping,
so, contrary to the claim, a negative index like `[-1]` parses fine) — and
the empty path parses to the empty segment sequence. -/
theorem parse_path_error_iff :
    (∀ p : String, isOkB (_parse_path p) = !pathScanBad p.data) ∧
    _parse_path "" = .ok [] := by
  constructor
  · intro p
    exact parseSegsFrom_ok_iff p.data []
  · rfl

/-- Counterexample for C5 as stated: the text `-1` between brackets is not a
valid non-negative integer, yet `_parse_path` returns normally (Python's
`int("-1")` succeeds), producing the negative index `-1`. -/
theorem parse_path_negative_index : _parse_path "[-1]" = .ok [Seg.idx (-1)] := by decide

-- ============ Path round trip (C4) ============

/-- A mapping key acceptable for unambiguous paths: non-empty and free of the
separator characters. -/
def goodKeyB (k : String) : Bool :=
  (!k.data.isEmpty) && k.data.all (fun c => (c != '.') && (c != '[') && (c != ']'))

/-- Segment-level form of `goodKeyB` (index segments are always fine). -/
def goodSegB : Seg → Bool
  | .key k => goodKeyB k
  | .idx _ => true

theorem goodKeyB_chars {k : String} (h : goodKeyB k = true) :
    k.data ≠ [] ∧ ∀ c ∈ k.data, c ≠ '.' ∧ c ≠ '[' ∧ c ≠ ']' := by
  rw [goodKeyB, Bool.and_eq_true, List.all_eq_true] at h
  constructor
  · intro he
    rw [he] at h
    simp at h
  · intro c hc
    have := h.2 c hc
    simp only [Bool.and_eq_true, bne_iff_ne] at this
    exact ⟨this.1.1, this.1.2, this.2⟩

theorem parseSegsFrom_append_chars : ∀ (ks s cur : List Char),
    (∀ c ∈ ks, c ≠ '.' ∧ c ≠ '[') →
    parseSegsFrom (ks ++ s) cur = parseSegsFrom s (cur ++ ks)
  | [], s, cur, _ => by rw [List.nil_append, List.append_nil]
  | c :: ks, s, cur, h => by
      rcases h c (List.mem_cons_self c ks) with ⟨h1, h2⟩
      rw [List.cons_append, parseSegsFrom, if_neg h1, if_neg h2,
        parseSegsFrom_append_chars ks s (cur ++ [c]) (fun c hc => h c (List.mem_cons_of_mem _ hc)),
        List.append_assoc]
      rfl

theorem parseIdxFrom_append_chars : ∀ (ds s inner : List Char),
    (∀ c ∈ ds, c ≠ ']') →
    parseIdxFrom (ds ++ s) inner = parseIdxFrom s (inner ++ ds)
  | [], s, inner, _ => by rw [List.nil_append, List.append_nil]
  | c :: ds, s, inner, h => by
      rw [List.cons_append, parseIdxFrom, if_neg (h c (List.mem_cons_self c ds)),
        parseIdxFrom_append_chars ds s (inner ++ [c]) (fun c hc => h c (List.mem_cons_of_mem _ hc)),
        List.append_assoc]
      rfl

/-- Characters of one non-initial rendered segment. -/
def segChars : Seg → List Char
  | .key k => '.' :: k.data
  | .idx n => '[' :: (intToChars n ++ [']'])

/-- Characters of the rendered tail segments (each in non-initial form). -/
def tailRenderChars : List Seg → List Char
  | [] => []
  | s :: rest => segChars s ++ tailRenderChars rest

theorem flushCur_data (k : String) (h : k.data ≠ []) : flushCur k.data = [Seg.key k] := by
  rw [flushCur, if_neg (by simpa using h)]

theorem intToChars_ne_rbracket : ∀ (n : Int), ∀ c ∈ intToChars n, c ≠ ']' := by
  intro n c hc
  cases n with
  | ofNat m =>
      rw [intToChars] at hc
      rcases natToChars_mem m c hc with ⟨d, hd, rfl⟩
      exact (digitChar_facts d hd).2.2.1
  | negSucc m =>
      rw [intToChars] at hc
      rcases List.mem_cons.mp hc with rfl | hc
      · decide
      · rcases natToChars_mem (m + 1) c hc with ⟨d, hd, rfl⟩
        exact (digitChar_facts d hd).2.2.1

theorem parseSegsFrom_tailRender : ∀ segs : List Seg, (∀ s ∈ segs, goodSegB s = true) →
    ∀ cur : List Char, parseSegsFrom (tailRenderChars segs) cur = .ok (flushCur cur ++ segs)
  | [], _, cur => by rw [tailRenderChars, parseSegsFrom, List.append_nil]
  | Seg.key k :: rest, h, cur => by
      have hk := goodKeyB_chars (show goodKeyB k = true from h _ (List.mem_cons_self _ rest))
      have hrest : ∀ s ∈ rest, goodSegB s = true := fun s hs => h s (List.mem_cons_of_mem _ hs)
      rw [tailRenderChars, segChars, List.cons_append, parseSegsFrom, if_pos rfl,
        parseSegsFrom_append_chars k.data _ [] (fun c hc => ⟨(hk.2 c hc).1, (hk.2 c hc).2.1⟩),
        List.nil_append, parseSegsFrom_tailRender rest hrest k.data, flushCur_data k hk.1]
      rfl
  | Seg.idx n :: rest, h, cur => by
      have hrest : ∀ s ∈ rest, goodSegB s = true := fun s hs => h s (List.mem_cons_of_mem _ hs)
      rw [tailRenderChars, segChars, List.cons_append, parseSegsFrom, if_neg (by decide),
        if_pos rfl, List.append_assoc,
        parseIdxFrom_append_chars (intToChars n) _ [] (intToChars_ne_rbracket n),
        List.nil_append]
      show Except.map (fun segs => flushCur cur ++ segs)
          (parseIdxFrom (']' :: tailRenderChars rest) (intToChars n)) = _
      rw [parseIdxFrom, if_pos rfl, pyInt_intToChars n]
      show Except.map (fun segs => flushCur cur ++ segs)
          (Except.map (fun segs => Seg.idx n :: segs) (parseSegsFrom (tailRenderChars rest) [])) = _
      rw [parseSegsFrom_tailRender rest hrest []]
      rfl

theorem renderFrom_data : ∀ (segs : List Seg) (acc : String), acc.data ≠ [] →
    (renderFrom acc segs).data = acc.data ++ tailRenderChars segs
  | [], acc, _ => by rw [renderFrom, tailRenderChars, List.append_nil]
  | Seg.key k :: rest, acc, h => by
      have hne : acc ≠ "" := fun he => h (by rw [he])
      have hstep : (childKeyPath acc k).data = acc.data ++ '.' :: k.data := by
        rw [childKeyPath, if_neg hne, String.data_append, String.data_append, List.append_assoc]
        rfl
      have hne2 : (childKeyPath acc k).data ≠ [] := by rw [hstep]; simp
      rw [renderFrom, renderFrom_data rest _ hne2, hstep, tailRenderChars, segChars,
        List.append_assoc]
  | Seg.idx n :: rest, acc, h => by
      have hstep : (childIdxPath acc n).data = acc.data ++ '[' :: (intToChars n ++ [']']) := by
        rw [childIdxPath, String.data_append, String.data_append, String.data_append,
          List.append_assoc, List.append_assoc]
        rfl
      have hne2 : (childIdxPath acc n).data ≠ [] := by rw [hstep]; simp
      rw [renderFrom, renderFrom_data rest _ hne2, hstep, tailRenderChars, segChars,
        List.append_assoc]

/-- C4 (amended): for every segment sequence whose mapping-key segments are
non-empty and free of the characters `.`, `[`, `]`, parsing the rendered
path reproduces exactly the original segments.  (The claim as stated omits
non-emptiness; an empty key renders invisibly and is dropped by the
parser.) -/
theorem parse_renderPath (segs : List Seg) (h : ∀ s ∈ segs, goodSegB s = true) :
    _parse_path (renderPath segs) = .ok segs := by
  rcases segs with _ | ⟨s0, rest⟩
  · rfl
  · have hrest : ∀ s ∈ rest, goodSegB s = true := fun s hs => h s (List.mem_cons_of_mem _ hs)
    rcases s0 with k | n
    · have hk := goodKeyB_chars (show goodKeyB k = true from h _ (List.mem_cons_self _ rest))
      have hchild : childKeyPath "" k = k := by rw [childKeyPath, if_pos rfl]
      rw [_parse_path, renderPath, renderFrom, hchild, renderFrom_data rest k hk.1,
        parseSegsFrom_append_chars k.data _ [] (fun c hc => ⟨(hk.2 c hc).1, (hk.2 c hc).2.1⟩),
        List.nil_append, parseSegsFrom_tailRender rest hrest k.data, flushCur_data k hk.1]
      rfl
    · have hstep : (childIdxPath "" n).data = '[' :: (intToChars n ++ [']']) := by
        rw [childIdxPath, String.data_append, String.data_append, String.data_append]
        rfl
      have hne2 : (childIdxPath "" n).data ≠ [] := by rw [hstep]; simp
      rw [_parse_path, renderPath, renderFrom, renderFrom_data rest _ hne2, hstep]
      have : ('[' :: (intToChars n ++ [']'])) ++ tailRenderChars rest
          = tailRenderChars (Seg.idx n :: rest) := by
        rw [tailRenderChars, segChars]
      rw [this, parseSegsFrom_tailRender (Seg.idx n :: rest) h []]
      rfl

/-- Witness for C4 (amended): a concrete good segment sequence round-trips. -/
theorem parse_renderPath_witness :
    (∀ s ∈ [Seg.key "foo", Seg.idx 2, Seg.key "bar"], goodSegB s = true) ∧
    _parse_path (renderPath [Seg.key "foo", Seg.idx 2, Seg.key "bar"])
      = .ok [Seg.key "foo", Seg.idx 2, Seg.key "bar"] :=
  ⟨by decide, parse_renderPath [Seg.key "foo", Seg.idx 2, Seg.key "bar"] (by decide)⟩

/-- Counterexample for C4 as stated: the empty key contains none of `.`, `[`,
`]`, yet `[key "a", key ""]` renders to `"a."`, which parses back to just
`[key "a"]`. -/
theorem parse_renderPath_empty_key :
    (∀ s ∈ [Seg.key "a", Seg.key ""], ∀ c ∈ (match s with
        | Seg.key k => k.data
        | Seg.idx _ => []), c ≠ '.' ∧ c ≠ '[' ∧ c ≠ ']') ∧
    _parse_path (renderPath [Seg.key "a", Seg.key ""]) ≠ .ok [Seg.key "a", Seg.key ""] := by
  decide

-- ============ Flatten/lookup consistency (C10) ============

/-- Key `x` does not occur among the keys of `l` (mapping keys are unique in
documents parsed from YAML). -/
def notKeyOf (x : String) : List (String × Doc) → Bool
  | [] => true
  | (k, _) :: rest => (x != k) && notKeyOf x rest

-- Well-formed documents for the flatten/lookup consistency law: every
-- mapping has pairwise-distinct keys that are non-empty and free of the
-- path separator characters.
mutual
def goodDoc : Doc → Bool
  | .map entries => goodEntries entries
  | .arr items => goodItems items
  | .scalar _ => true
termination_by structural d => d

def goodEntries : List (String × Doc) → Bool
  | [] => true
  | (k, v) :: rest => goodKeyB k && notKeyOf k rest && goodDoc v && goodEntries rest
termination_by structural l => l

def goodItems : List Doc → Bool
  | [] => true
  | v :: rest => goodDoc v && goodItems rest
termination_by structural l => l
end

theorem notKeyOf_ne : ∀ (x : String) (l : List (String × Doc)) (k : String) (w : Doc),
    notKeyOf x l = true → (k, w) ∈ l → ¬ x = k
  | x, [], k, w, _, hmem => absurd hmem (List.not_mem_nil _)
  | x, (k', v') :: rest, k, w, h, hmem => by
      rw [notKeyOf, Bool.and_eq_true, bne_iff_ne] at h
      rcases List.mem_cons.mp hmem with heq | hmem
      · cases heq
        exact h.1
      · exact notKeyOf_ne x rest k w h.2 hmem

theorem listLookup_of_mem : ∀ (entries : List (String × Doc)), goodEntries entries = true →
    ∀ (k : String) (w : Doc), (k, w) ∈ entries → listLookup entries k = some w
  | [], _, k, w, hmem => absurd hmem (List.not_mem_nil _)
  | (k', v') :: rest, hg, k, w, hmem => by
      rw [goodEntries] at hg
      simp only [Bool.and_eq_true] at hg
      obtain ⟨⟨⟨hk', hnk⟩, hv'⟩, hrest⟩ := hg
      rcases List.mem_cons.mp hmem with heq | hmem
      · cases heq
        rw [listLookup, if_pos rfl]
      · have hne : k ≠ k' := fun he => (notKeyOf_ne k' rest k w hnk hmem) he.symm
        rw [listLookup, if_neg hne, listLookup_of_mem rest hrest k w hmem]

theorem renderFrom_append : ∀ (l₁ : List Seg) (acc : String) (l₂ : List Seg),
    renderFrom acc (l₁ ++ l₂) = renderFrom (renderFrom acc l₁) l₂
  | [], acc, l₂ => rfl
  | Seg.key k :: rest, acc, l₂ => by
      rw [List.cons_append, renderFrom, renderFrom, renderFrom_append rest _ l₂]
  | Seg.idx n :: rest, acc, l₂ => by
      rw [List.cons_append, renderFrom, renderFrom, renderFrom_append rest _ l₂]

theorem renderPath_snoc_key (pfx : List Seg) (k : String) :
    renderPath (pfx ++ [Seg.key k]) = childKeyPath (renderPath pfx) k := by
  rw [renderPath, renderFrom_append pfx "" [Seg.key k]]
  rfl

theorem renderPath_snoc_idx (pfx : List Seg) (n : Int) :
    renderPath (pfx ++ [Seg.idx n]) = childIdxPath (renderPath pfx) n := by
  rw [renderPath, renderFrom_append pfx "" [Seg.idx n]]
  rfl

theorem flatten_root_not_container (d : Doc) (h : isNonEmptyContainer d = false) :
    flatten d "" = [] := by
  cases d with
  | map entries =>
      cases entries with
      | nil => rfl
      | cons e rest => simp [isNonEmptyContainer] at h
  | arr items =>
      cases items with
      | nil => rfl
      | cons e rest => simp [isNonEmptyContainer] at h
  | scalar s => rfl

mutual
theorem walk_flatten_doc : ∀ (d : Doc) (pfx : List Seg), goodDoc d = true →
    isNonEmptyContainer d = true → ∀ (p : String) (v : Doc),
    (p, v) ∈ flatten d (renderPath pfx) →
    ∃ segs, segs ≠ [] ∧ (∀ s ∈ segs, goodSegB s = true) ∧
      p = renderPath (pfx ++ segs) ∧ walkParts segs d = (true, v)
  | .map entries, pfx, hg, _, p, v, hmem => by
      rw [flatten] at hmem
      rw [goodDoc] at hg
      obtain ⟨k, w, segs', hkmem, hk, hsgood, hp, hwalk⟩ :=
        walk_flatten_map entries pfx hg p v hmem
      refine ⟨Seg.key k :: segs', by simp, ?_, hp, ?_⟩
      · intro s hs
        rcases List.mem_cons.mp hs with rfl | hs
        · exact hk
        · exact hsgood s hs
      · have hlk : listLookup entries k = some w := listLookup_of_mem entries hg k w hkmem
        simp [walkParts, hlk, hwalk]
  | .arr items, pfx, hg, _, p, v, hmem => by
      rw [flatten] at hmem
      rw [goodDoc] at hg
      obtain ⟨j, w, segs', hget, hsgood, hp, hwalk⟩ :=
        walk_flatten_arr items pfx 0 hg p v hmem
      rw [show (0 + j) = j by omega] at hp
      obtain ⟨hlt, -⟩ := List.get?_eq_some.mp hget
      refine ⟨Seg.idx (j : Int) :: segs', by simp, ?_, hp, ?_⟩
      · intro s hs
        rcases List.mem_cons.mp hs with rfl | hs
        · rfl
        · exact hsgood s hs
      · have htn : ((j : Int)).toNat = j := Int.toNat_ofNat j
        have hget2 : items[j]? = some w := by rw [← List.get?_eq_getElem?]; exact hget
        have hnb : ¬((j : Int) < 0 ∨ items.length ≤ j) := by omega
        simp [walkParts, htn, hnb, hget2, hwalk]
  | .scalar s, pfx, _, hne, p, v, hmem => by simp [isNonEmptyContainer] at hne
termination_by structural d => d

theorem walk_flatten_map : ∀ (entries : List (String × Doc)) (pfx : List Seg),
    goodEntries entries = true → ∀ (p : String) (v : Doc),
    (p, v) ∈ flattenMap entries (renderPath pfx) →
    ∃ (k : String) (w : Doc) (segs' : List Seg), (k, w) ∈ entries ∧ goodKeyB k = true ∧
      (∀ s ∈ segs', goodSegB s = true) ∧
      p = renderPath (pfx ++ Seg.key k :: segs') ∧ walkParts segs' w = (true, v)
  | [], _, _, p, v, hmem => absurd hmem (by rw [flattenMap]; exact List.not_mem_nil _)
  | (k, v0) :: rest, pfx, hg, p, v, hmem => by
      rw [goodEntries] at hg
      simp only [Bool.and_eq_true] at hg
      obtain ⟨⟨⟨hk, hnk⟩, hv0⟩, hrest⟩ := hg
      rw [flattenMap] at hmem
      rcases List.mem_append.mp hmem with hmem | hmem
      · by_cases hne : isNonEmptyContainer v0
        · rw [if_pos hne, ← renderPath_snoc_key pfx k] at hmem
          obtain ⟨segs, hsne, hsgood, hp, hwalk⟩ :=
            walk_flatten_doc v0 (pfx ++ [Seg.key k]) hv0 hne p v hmem
          refine ⟨k, v0, segs, List.mem_cons_self _ _, hk, hsgood, ?_, hwalk⟩
          rw [hp, List.append_assoc]
          rfl
        · rw [if_neg hne] at hmem
          rcases List.mem_singleton.mp hmem with heq
          have hpp : p = childKeyPath (renderPath pfx) k := congrArg Prod.fst heq
          have hvv : v = v0 := congrArg Prod.snd heq
          refine ⟨k, v0, [], List.mem_cons_self _ _, hk, by simp, ?_, by rw [hvv]; rfl⟩
          rw [hpp, ← renderPath_snoc_key pfx k]
      · obtain ⟨k', w, segs', hmem', hk', hsgood, hp, hwalk⟩ :=
          walk_flatten_map rest pfx hrest p v hmem
        exact ⟨k', w, segs', List.mem_cons_of_mem _ hmem', hk', hsgood, hp, hwalk⟩
termination_by structural entries => entries

theorem walk_flatten_arr : ∀ (items : List Doc) (pfx : List Seg) (i : Nat),
    goodItems items = true → ∀ (p : String) (v : Doc),
    (p, v) ∈ flattenArr items (renderPath pfx) i →
    ∃ (j : Nat) (w : Doc) (segs' : List Seg), items.get? j = some w ∧
      (∀ s ∈ segs', goodSegB s = true) ∧
      p = renderPath (pfx ++ Seg.idx ((i + j : Nat) : Int) :: segs') ∧
      walkParts segs' w = (true, v)
  | [], _, _, _, p, v, hmem => absurd hmem (by rw [flattenArr]; exact List.not_mem_nil _)
  | v0 :: rest, pfx, i, hg, p, v, hmem => by
      rw [goodItems] at hg
      simp only [Bool.and_eq_true] at hg
      obtain ⟨hv0, hrest⟩ := hg
      rw [flattenArr] at hmem
      rcases List.mem_append.mp hmem with hmem | hmem
      · by_cases hne : isNonEmptyContainer v0
        · rw [if_pos hne, ← renderPath_snoc_idx pfx (i : Int)] at hmem
          obtain ⟨segs, hsne, hsgood, hp, hwalk⟩ :=
            walk_flatten_doc v0 (pfx ++ [Seg.idx (i : Int)]) hv0 hne p v hmem
          refine ⟨0, v0, segs, rfl, hsgood, ?_, hwalk⟩
          rw [hp, List.append_assoc, show ((i + 0 : Nat) : Int) = (i : Int) by omega]
          rfl
        · rw [if_neg hne] at hmem
          rcases List.mem_singleton.mp hmem with heq
          have hpp : p = childIdxPath (renderPath pfx) (i : Int) := congrArg Prod.fst heq
          have hvv : v = v0 := congrArg Prod.snd heq
          refine ⟨0, v0, [], rfl, by simp, ?_, by rw [hvv]; rfl⟩
          rw [hpp, ← renderPath_snoc_idx pfx (i : Int),
            show ((i + 0 : Nat) : Int) = (i : Int) by omega]
      · obtain ⟨j', w, segs', hget, hsgood, hp, hwalk⟩ :=
          walk_flatten_arr rest pfx (i + 1) hrest p v hmem
        refine ⟨j' + 1, w, segs', hget, hsgood, ?_, hwalk⟩
        rw [hp, show (i + 1 + j' : Nat) = (i + (j' + 1) : Nat) by omega]
termination_by structural items => items
end

/-- C10: for every well-formed document (mapping keys non-empty, free of the
path separator characters, and unique within each mapping), every pair
`(path, value)` produced by the flattener is found again by
`get_node_value`, which returns `(True, value)`. -/
theorem flatten_lookup_consistent (d : Doc) (hg : goodDoc d = true) (p : String) (v : Doc)
    (hmem : (p, v) ∈ flatten d "") : get_node_value d p = .ok (true, v) := by
  rcases hne : isNonEmptyContainer d with _ | _
  · rw [flatten_root_not_container d hne] at hmem
    exact absurd hmem (List.not_mem_nil _)
  · rw [show ("" : String) = renderPath [] from rfl] at hmem
    obtain ⟨segs, hsne, hsgood, hp, hwalk⟩ := walk_flatten_doc d [] hg hne p v hmem
    rw [List.nil_append] at hp
    subst hp
    have hpne : renderPath segs ≠ "" := by
      intro he
      have hd := congrArg String.data he
      rcases segs with _ | ⟨s0, rest⟩
      · exact hsne rfl
      · rcases s0 with k | n
        · have hk := goodKeyB_chars (show goodKeyB k = true from hsgood _ (List.mem_cons_self _ rest))
          rw [renderPath, renderFrom, show childKeyPath "" k = k from by rw [childKeyPath, if_pos rfl]] at hd
          rw [show renderFrom k rest = renderFrom k rest from rfl] at hd
          have := renderFrom_data rest k hk.1
          rw [show (renderFrom k rest) = renderFrom k rest from rfl] at this
          rw [this] at hd
          simp at hd
          exact hk.1 hd.1
        · have hstep : (childIdxPath "" n).data = '[' :: (intToChars n ++ [']']) := by
            rw [childIdxPath, String.data_append, String.data_append, String.data_append]
            rfl
          have hne2 : (childIdxPath "" n).data ≠ [] := by rw [hstep]; simp
          rw [renderPath, renderFrom, renderFrom_data rest _ hne2, hstep] at hd
          simp at hd
    rw [get_node_value, if_neg hpne, parse_renderPath segs hsgood]
    show Except.ok (walkParts segs d) = Except.ok (true, v)
    rw [hwalk]

/-- Witness for C10 at a concrete two-level document. -/
theorem flatten_lookup_consistent_witness :
    goodDoc (Doc.map [("a", Doc.map [("b", Doc.scalar (.int 1))]),
        ("c", Doc.arr [Doc.scalar (.str "x")])]) = true ∧
    ("a.b", Doc.scalar (.int 1)) ∈ flatten (Doc.map [("a", Doc.map [("b", Doc.scalar (.int 1))]),
        ("c", Doc.arr [Doc.scalar (.str "x")])]) "" ∧
    get_node_value (Doc.map [("a", Doc.map [("b", Doc.scalar (.int 1))]),
        ("c", Doc.arr [Doc.scalar (.str "x")])]) "a.b" = .ok (true, Doc.scalar (.int 1)) :=
  ⟨by decide, by decide,
    flatten_lookup_consistent _ (by decide) "a.b" (Doc.scalar (.int 1)) (by decide)⟩
